import Mathlib

/-!
Verification of the fan-out / fan-in combinator subsystem of the datapipes
library (`torch/utils/data/datapipes/iter/combining.py` and
`torch/utils/data/datapipes/iter/callable.py`).

The Python classes are shallowly embedded as pure Lean functions over
explicit state:

* `_ForkerIterDataPipe` becomes a state machine `ForkState` with a single
  step function `getNext` mirroring `get_next_element_by_instance`
  (one resumption of the generator = one `getNext` call);
* `_ChildDataPipe.__iter__` becomes `childIterStart`;
* `MultiplexerIterDataPipe.__iter__` becomes `muxRound` / `muxIter`;
* `ConcaterIterDataPipe.__init__` / `ZipperIterDataPipe.__init__` become
  `concatInit` / `zipInit`;
* `DemultiplexerIterDataPipe.__new__` becomes `demux`;
* `MapperIterDataPipe._apply` becomes `applyFn`.

Machine integers do not occur; Python ints are modelled as `Nat`/`Int`
(`Int` wherever a Python expression could go negative).
-/

namespace DataPipes

/-- State of `_ForkerIterDataPipe` (combining.py lines 82-91).
`iterPos` is the number of elements already drawn from
`self._datapipe_iterator`; `_datapipe_iterator is None` before first use is
observationally `iterPos = 0`. -/
structure ForkState (α : Type) where
  buffer : List α
  childPointers : List Nat
  slowestPtr : Nat
  leadingPtr : Nat
  endPtr : Option Nat
  iterPos : Nat
deriving DecidableEq, Repr

/-- `__init__`: empty buffer, `num_instances` zero cursors, all pointers 0. -/
def initFork (α : Type) (k : Nat) : ForkState α :=
  ⟨[], List.replicate k 0, 0, 0, none, 0⟩

/-- Result of resuming `get_next_element_by_instance` once: a yielded
value, generator return (consumer sees `StopIteration`), or the
`BufferError` carrying the configured `buffer_size` from its message. -/
inductive PullResult (α : Type) where
  | yielded : α → ForkState α → PullResult α
  | stopped : ForkState α → PullResult α
  | overflow : Nat → ForkState α → PullResult α
deriving DecidableEq, Repr

/-- Python `min(child_pointers)` (defined as 0 on `[]`, which Python would
reject; it is only called on non-empty lists). -/
def listMin : List Nat → Nat
  | [] => 0
  | x :: xs => xs.foldl Nat.min x

/-- One execution of the `while` body of `get_next_element_by_instance`
(combining.py lines 97-117).  `u` is the upstream sequence, `bs` is
`buffer_size`.  On the `StopIteration` path the Python loop re-checks its
condition, which is then false, so the generator returns: `stopped`.
The overflow comparison is done in `Int` exactly as in Python.
`buffer[buffer_index]` uses `getD`; on every reachable state the index is
in range (proved below as part of the invariant). -/
def getNextBody [Inhabited α] (u : List α) (bs : Nat) (s : ForkState α)
    (i : Nat) : PullResult α :=
  let cp := s.childPointers.getD i 0
  if s.buffer.isEmpty || cp > s.leadingPtr then
    -- this consumer is the current leader: fetch from upstream
    if (cp : Int) - (s.slowestPtr : Int) + 1 > (bs : Int) then
      .overflow bs { s with leadingPtr := cp }
    else
      match u.get? s.iterPos with
      | some v =>
          .yielded v { s with
            leadingPtr := cp
            buffer := s.buffer ++ [v]
            iterPos := s.iterPos + 1
            childPointers := s.childPointers.set i (cp + 1) }
      | none =>
          .stopped { s with leadingPtr := cp, endPtr := some cp }
  else
    -- consumer is within the buffered window
    let v := s.buffer.getD (cp - s.slowestPtr) default
    let cps := s.childPointers.set i (cp + 1)
    if cp = s.slowestPtr then
      let m := listMin cps
      if s.slowestPtr < m then
        .yielded v { s with
          childPointers := cps
          slowestPtr := m
          buffer := s.buffer.tail }
      else
        .yielded v { s with childPointers := cps }
    else
      .yielded v { s with childPointers := cps }

/-- One resumption of the generator for consumer `i`: the `while`
condition (line 96) followed, when it holds, by the body. -/
def getNext [Inhabited α] (u : List α) (bs : Nat) (s : ForkState α)
    (i : Nat) : PullResult α :=
  match s.endPtr with
  | none => getNextBody u bs s i
  | some e =>
      if s.childPointers.getD i 0 < e then getNextBody u bs s i
      else .stopped s

/-- Observable event of one pull. -/
inductive Ev (α : Type) where
  | val : α → Ev α
  | stop : Ev α
  | ovfl : Nat → Ev α
deriving DecidableEq, Repr

/-- Drive the container through a schedule of consumer indices, recording
one event per pull.  A `BufferError` propagates out of the driving loop,
so the schedule is abandoned at the first overflow. -/
def drive [Inhabited α] (u : List α) (bs : Nat) :
    List Nat → ForkState α → List (Nat × Ev α) × ForkState α
  | [], s => ([], s)
  | i :: rest, s =>
    match getNext u bs s i with
    | .yielded v s' =>
        let r := drive u bs rest s'
        ((i, Ev.val v) :: r.1, r.2)
    | .stopped s' =>
        let r := drive u bs rest s'
        ((i, Ev.stop) :: r.1, r.2)
    | .overflow c s' => ([(i, Ev.ovfl c)], s')

/-- The perfect-lockstep schedule: `r` rounds, each driving consumers
`0, 1, ..., k-1` once in order. -/
def lockSched (k r : Nat) : List Nat :=
  (List.replicate r (List.range k)).flatten

/-- An event is an overflow. -/
def isOvflEv : Ev α → Bool
  | .ovfl _ => true
  | _ => false

/-- No overflow occurs anywhere in an event log. -/
def NoOvfl (evs : List (Nat × Ev α)) : Prop :=
  ∀ p ∈ evs, isOvflEv p.2 = false

section ForkLemmas

variable {α : Type} [Inhabited α]

theorem foldl_min_replicate (acc a n : Nat) :
    List.foldl Nat.min acc (List.replicate n a) =
      if n = 0 then acc else Nat.min acc a := by
  induction n generalizing acc with
  | zero => simp
  | succ n ih =>
      rcases Nat.eq_zero_or_pos n with h | h
      · subst h; simp
      · have hn : n ≠ 0 := by omega
        simp [List.replicate_succ, ih, hn, Nat.min_assoc, Nat.min_self]

theorem listMin_replicate_append (p q a b : Nat) :
    listMin (List.replicate (p + 1) a ++ List.replicate q b) =
      if q = 0 then a else Nat.min a b := by
  simp only [List.replicate_succ, List.cons_append, listMin, List.foldl_append,
    foldl_min_replicate, Nat.min_self, ite_self]

theorem listMin_replicate (k a : Nat) :
    listMin (List.replicate (k + 1) a) = a := by
  simp [List.replicate_succ, listMin, foldl_min_replicate, Nat.min_self, ite_self]

theorem foldl_min_le_init (l : List Nat) (acc : Nat) :
    List.foldl Nat.min acc l ≤ acc := by
  induction l generalizing acc with
  | nil => simp
  | cons x xs ih =>
      calc List.foldl Nat.min (Nat.min acc x) xs ≤ Nat.min acc x := ih _
        _ ≤ acc := Nat.min_le_left _ _

theorem foldl_min_le_mem (l : List Nat) :
    ∀ acc x, x ∈ l → List.foldl Nat.min acc l ≤ x := by
  induction l with
  | nil => intro acc x hx; cases hx
  | cons y ys ih =>
      intro acc x hx
      rcases List.mem_cons.mp hx with h | h
      · subst h
        exact le_trans (foldl_min_le_init ys (Nat.min acc x))
          (Nat.min_le_right _ _)
      · exact ih _ _ h

theorem listMin_le_mem (l : List Nat) (x : Nat) (hx : x ∈ l) :
    listMin l ≤ x := by
  cases l with
  | nil => cases hx
  | cons y ys =>
      rcases List.mem_cons.mp hx with h | h
      · subst h; exact foldl_min_le_init _ _
      · exact foldl_min_le_mem _ _ _ h

theorem getD_replicate_append (j m a b i : Nat) (h : i < j + m) :
    (List.replicate j a ++ List.replicate m b).getD i 0 =
      if i < j then a else b := by
  by_cases hij : i < j
  · simp [List.getD_eq_getElem?_getD, List.getElem?_append, hij,
      List.getElem?_replicate]
  · have hib : i - j < m := by omega
    simp [List.getD_eq_getElem?_getD, List.getElem?_append, hij,
      List.getElem?_replicate, hib]

theorem getD_replicate (k a i : Nat) (h : i < k) :
    (List.replicate k a).getD i 0 = a := by
  simp [List.getD_eq_getElem?_getD, List.getElem?_replicate, h]

theorem set_replicate_append (j m a b : Nat) (hm : 1 ≤ m) :
    (List.replicate j a ++ List.replicate m b).set j a =
      List.replicate (j + 1) a ++ List.replicate (m - 1) b := by
  obtain ⟨m', rfl⟩ : ∃ m', m = m' + 1 := ⟨m - 1, by omega⟩
  rw [List.set_append, if_neg (by simp)]
  simp only [List.length_replicate, Nat.sub_self, Nat.add_sub_cancel]
  rw [List.replicate_succ b m', List.replicate_succ' j a, List.append_assoc]
  simp

/-- State of the container right after `m` complete lockstep rounds
(`m ≤ upstream length`): empty buffer, every cursor at `m`.  After round
`m ≥ 1` the shared `slowest_ptr` has been advanced to `m` by the last
consumer of the round while `leading_ptr` still equals `m - 1`; with
truncated subtraction the same expression also describes the initial
state (`m = 0`). -/
def roundState (α : Type) [Inhabited α] (k m : Nat) : ForkState α :=
  ⟨[], List.replicate k m, m, m - 1, none, m⟩

/-- Mid-round state: consumers `0 .. j-1` have read position `m` (the
first of them fetched it into the buffer), consumers `j .. k-1` have not
yet. -/
def midState (u : List α) (k m j : Nat) : ForkState α :=
  ⟨[u.getD m default], List.replicate j (m + 1) ++ List.replicate (k - j) m,
    m, m, none, m + 1⟩

/-- State after the upstream got exhausted during the pull that followed
`n` complete rounds: `end_ptr = leading_ptr = n`. -/
def endState (α : Type) [Inhabited α] (k n : Nat) : ForkState α :=
  ⟨[], List.replicate k n, n, n, some n, n⟩

theorem roundState_zero (k : Nat) : roundState α k 0 = initFork α k := rfl

theorem get?_eq_some_getD (u : List α) (m : Nat) (h : m < u.length) :
    u.get? m = some (u.getD m default) := by
  simp [List.get?_eq_getElem?, List.getD_eq_getElem?_getD,
    List.getElem?_eq_getElem h]

/-- First pull of a lockstep round: consumer 0 finds the buffer empty,
fetches position `m` and leads. -/
theorem pull_round_first (u : List α) (c k m : Nat) (hk : 1 ≤ k)
    (hc : 1 ≤ c) (hm : m < u.length) :
    getNext u c (roundState α k m) 0 =
      .yielded (u.getD m default) (midState u k m 1) := by
  have hk' : 0 < k := hk
  have hcp : ((List.replicate k m)[0]?).getD 0 = m := by
    simp [List.getElem?_replicate, hk']
  have hset : (List.replicate k m).set 0 (m + 1) =
      List.replicate 1 (m + 1) ++ List.replicate (k - 1) m := by
    obtain ⟨k', rfl⟩ : ∃ k', k = k' + 1 := ⟨k - 1, by omega⟩
    simp [List.replicate_succ]
  have hchk : ¬ ((m : Int) - (m : Int) + 1 > (c : Int)) := by omega
  have hv : u[m]? = some u[m] := List.getElem?_eq_getElem hm
  simp [getNext, roundState, getNextBody, hcp, hchk, hv, hset, midState]
  omega

/-- Middle pulls of a lockstep round: consumer `j` (`1 ≤ j`, `j + 1 < k`)
reads position `m` out of the buffer; the recomputed minimum does not
move `slowest_ptr` because later consumers still sit at `m`. -/
theorem pull_round_mid (u : List α) (c k m j : Nat) (hj : 1 ≤ j)
    (hjk : j + 1 < k) :
    getNext u c (midState u k m j) j =
      .yielded (u.getD m default) (midState u k m (j + 1)) := by
  have hcp : ((List.replicate j (m + 1) ++ List.replicate (k - j) m)[j]?).getD 0
      = m := by
    rw [List.getElem?_append]
    simp only [List.length_replicate, lt_irrefl, if_neg, Nat.sub_self]
    have : 0 < k - j := by omega
    simp [List.getElem?_replicate, this]
  have hset : (List.replicate j (m + 1) ++ List.replicate (k - j) m).set j (m + 1)
      = List.replicate (j + 1) (m + 1) ++ List.replicate (k - j - 1) m :=
    set_replicate_append j (k - j) (m + 1) m (by omega)
  have hmin : listMin (List.replicate (j + 1) (m + 1) ++
      List.replicate (k - j - 1) m) = m := by
    rw [listMin_replicate_append]
    have hq : ¬ (k - j - 1 = 0) := by omega
    simp [hq, Nat.min_def]
  have hwin : k - (j + 1) = k - j - 1 := by omega
  simp [getNext, midState, getNextBody, hcp, hset, hmin, hwin]

/-- Last pull of a lockstep round: consumer `k - 1` reads position `m`,
the recomputed minimum is `m + 1`, so `slowest_ptr` advances and the
buffered element is evicted, completing the round. -/
theorem pull_round_last (u : List α) (c k m j : Nat) (hj : 1 ≤ j)
    (hjk : j + 1 = k) :
    getNext u c (midState u k m j) j =
      .yielded (u.getD m default) (roundState α k (m + 1)) := by
  have hcp : ((List.replicate j (m + 1) ++ List.replicate (k - j) m)[j]?).getD 0
      = m := by
    rw [List.getElem?_append]
    simp only [List.length_replicate, lt_irrefl, if_neg, Nat.sub_self]
    have : 0 < k - j := by omega
    simp [List.getElem?_replicate, this]
  have hset : (List.replicate j (m + 1) ++ List.replicate (k - j) m).set j (m + 1)
      = List.replicate (j + 1) (m + 1) ++ List.replicate (k - j - 1) m :=
    set_replicate_append j (k - j) (m + 1) m (by omega)
  have hkj : k - j - 1 = 0 := by omega
  have hrep : List.replicate (j + 1) (m + 1) ++ List.replicate (k - j - 1) m =
      List.replicate k (m + 1) := by
    rw [hkj, hjk]
    simp
  have hmin : listMin (List.replicate k (m + 1)) = m + 1 := by
    rw [← hjk]
    exact listMin_replicate j (m + 1)
  have hm1 : m + 1 - 1 = m := by omega
  simp [getNext, midState, getNextBody, hcp, hset, hmin, hrep, roundState, hm1]

/-- The pull that discovers exhaustion: from the state after all `n`
rounds, consumer 0 finds the buffer empty, passes the overflow check,
hits `StopIteration` and records `end_ptr`. -/
theorem pull_exhaust (u : List α) (c k : Nat) (hk : 1 ≤ k) (hc : 1 ≤ c) :
    getNext u c (roundState α k u.length) 0 =
      .stopped (endState α k u.length) := by
  have hk' : 0 < k := hk
  have hcp : ((List.replicate k u.length)[0]?).getD 0 = u.length := by
    simp [List.getElem?_replicate, hk']
  have hchk : ¬ ((u.length : Int) - (u.length : Int) + 1 > (c : Int)) := by
    omega
  have hv : u[u.length]? = none := by simp
  simp [getNext, roundState, getNextBody, hcp, hchk, hv, endState]
  omega

/-- After exhaustion every further pull by any consumer immediately
returns without touching the state. -/
theorem pull_steady (u : List α) (c k n j : Nat) (hj : j < k) :
    getNext u c (endState α k n) j = .stopped (endState α k n) := by
  have hcp : ((List.replicate k n)[j]?).getD 0 = n := by
    simp [List.getElem?_replicate, hj]
  simp [getNext, endState, hcp]

/-- Driving a concatenated schedule splits into driving the two halves,
provided the first half does not abort with an overflow. -/
theorem drive_append_of_noOvfl (u : List α) (bs : Nat) :
    ∀ (a b : List Nat) (s : ForkState α),
      NoOvfl (drive u bs a s).1 →
      drive u bs (a ++ b) s =
        ((drive u bs a s).1 ++ (drive u bs b (drive u bs a s).2).1,
          (drive u bs b (drive u bs a s).2).2) := by
  intro a
  induction a with
  | nil => intro b s _; simp [drive]
  | cons i rest ih =>
      intro b s hno
      cases hg : getNext u bs s i with
      | yielded v s1 =>
          have hno' : NoOvfl (drive u bs rest s1).1 := by
            intro p hp
            exact hno p (by simp [drive, hg, hp])
          simp [drive, hg, List.cons_append, ih b s1 hno']
      | stopped s1 =>
          have hno' : NoOvfl (drive u bs rest s1).1 := by
            intro p hp
            exact hno p (by simp [drive, hg, hp])
          simp [drive, hg, List.cons_append, ih b s1 hno']
      | overflow cv s1 =>
          exfalso
          have := hno (i, Ev.ovfl cv) (by simp [drive, hg])
          simp [isOvflEv] at this

/-- Consumers `j, j+1, ..., k-1` each read position `m` from the buffer,
returning the container to the (m+1)-round state. -/
theorem drive_range'_tail (u : List α) (c k m : Nat) :
    ∀ d j, d = k - j → 1 ≤ j → j < k →
      drive u c (List.range' j (k - j)) (midState u k m j) =
        ((List.range' j (k - j)).map (fun i => (i, Ev.val (u.getD m default))),
          roundState α k (m + 1)) := by
  intro d
  induction d with
  | zero => intro j hd h1 h2; omega
  | succ d ih =>
      intro j hd h1 h2
      have hkj : k - j = d + 1 := hd.symm
      rw [hkj, List.range'_succ]
      rcases Nat.lt_or_ge (j + 1) k with hlt | hge
      · have hstep := pull_round_mid u c k m j h1 hlt
        simp only [drive, hstep, List.map_cons]
        have hd' : k - (j + 1) = d := by omega
        have ihr := ih (j + 1) hd'.symm (by omega) hlt
        rw [hd'] at ihr
        rw [ihr]
      · have hj1 : j + 1 = k := by omega
        have hd0 : d = 0 := by omega
        subst hd0
        have hstep := pull_round_last u c k m j h1 hj1
        simp [drive, hstep]

/-- One full lockstep round: every consumer gets position `m` once, and
the container returns to a round state. -/
theorem drive_round (u : List α) (c k m : Nat) (hk : 2 ≤ k) (hc : 1 ≤ c)
    (hm : m < u.length) :
    drive u c (List.range k) (roundState α k m) =
      ((List.range k).map (fun i => (i, Ev.val (u.getD m default))),
        roundState α k (m + 1)) := by
  obtain ⟨k', rfl⟩ : ∃ k', k = k' + 1 := ⟨k - 1, by omega⟩
  rw [List.range_eq_range', List.range'_succ]
  have hstep := pull_round_first u c (k' + 1) m (by omega) hc hm
  simp only [drive, hstep, List.map_cons]
  have h1 : k' + 1 - 1 = k' := by omega
  have ihr := drive_range'_tail u c (k' + 1) m k' 1 (by omega) (by omega)
    (by omega)
  rw [h1] at ihr
  simp only [Nat.zero_add]
  rw [ihr]

/-- After exhaustion, any in-range schedule only produces stop events. -/
theorem drive_stop_sched (u : List α) (c k n : Nat) :
    ∀ l, (∀ i ∈ l, i < k) →
      drive u c l (endState α k n) =
        (l.map (fun i => (i, Ev.stop)), endState α k n) := by
  intro l
  induction l with
  | nil => intro; simp [drive]
  | cons i rest ih =>
      intro hl
      have hi : i < k := hl i (by simp)
      simp only [drive, pull_steady u c k n i hi, List.map_cons]
      rw [ih (fun j hj => hl j (List.mem_cons_of_mem _ hj))]

/-- The final lockstep round: consumer 0 discovers exhaustion, everyone
receives a stop. -/
theorem drive_final_round (u : List α) (c k : Nat) (hk : 2 ≤ k)
    (hc : 1 ≤ c) :
    drive u c (List.range k) (roundState α k u.length) =
      ((List.range k).map (fun i => (i, Ev.stop)), endState α k u.length) := by
  obtain ⟨k', rfl⟩ : ∃ k', k = k' + 1 := ⟨k - 1, by omega⟩
  rw [List.range_eq_range', List.range'_succ]
  have hstep := pull_exhaust u c (k' + 1) (by omega) hc
  simp only [drive, hstep, List.map_cons]
  rw [drive_stop_sched u c (k' + 1) u.length (List.range' 1 k')
    (fun i hi => by
      have := List.mem_range'_1.mp hi
      omega)]

theorem lockSched_succ (k r : Nat) :
    lockSched k (r + 1) = List.range k ++ lockSched k r := by
  simp [lockSched, List.replicate_succ]

/-- Lockstep driving from any round state `m` to the very end. -/
theorem drive_lockstep_from (u : List α) (c k : Nat) (hk : 2 ≤ k)
    (hc : 1 ≤ c) :
    ∀ d m, d = u.length - m → m ≤ u.length →
      drive u c (lockSched k (u.length - m + 1)) (roundState α k m) =
        (((u.drop m).map
            (fun v => (List.range k).map (fun i => (i, Ev.val v)))).flatten
          ++ (List.range k).map (fun i => (i, Ev.stop)),
          endState α k u.length) := by
  intro d
  induction d with
  | zero =>
      intro m hd hm
      have hme : m = u.length := by omega
      subst hme
      simp only [Nat.sub_self]
      have h1 : lockSched k 1 = List.range k := by simp [lockSched]
      rw [h1, drive_final_round u c k hk hc]
      simp
  | succ d ih =>
      intro m hd hm
      have hmlt : m < u.length := by omega
      have hsub : u.length - m + 1 = (u.length - (m + 1) + 1) + 1 := by omega
      rw [hsub, lockSched_succ]
      have hround := drive_round u c k m hk hc hmlt
      have hno : NoOvfl (drive u c (List.range k) (roundState α k m)).1 := by
        rw [hround]
        intro p hp
        simp only [List.mem_map, List.mem_range] at hp
        obtain ⟨i, _, rfl⟩ := hp
        rfl
      rw [drive_append_of_noOvfl u c _ _ _ hno, hround]
      rw [ih (m + 1) (by omega) (by omega)]
      have hdrop : u.drop m = u[m] :: u.drop (m + 1) :=
        List.drop_eq_getElem_cons hmlt
      have hgd : u.getD m default = u[m] := by
        simp [List.getD_eq_getElem?_getD, List.getElem?_eq_getElem hmlt]
      rw [hgd, hdrop, List.map_cons, List.flatten_cons, List.append_assoc]

end ForkLemmas

/-- The subsequence of events observed by consumer `i`. -/
def consumerTrace {α : Type} (i : Nat) (evs : List (Nat × Ev α)) :
    List (Ev α) :=
  (evs.filter (fun p => p.1 == i)).map Prod.snd

section TraceLemmas

variable {α : Type} [Inhabited α]

theorem filter_pair_range_ge (x : Ev α) :
    ∀ k i, k ≤ i →
      ((List.range k).map (fun j => (j, x))).filter (fun p => p.1 == i)
        = [] := by
  intro k
  induction k with
  | zero => intro i _; simp
  | succ k ih =>
      intro i hi
      rw [List.range_succ, List.map_append, List.filter_append]
      have hne : (k == i) = false := by simp; omega
      simp [ih i (by omega), hne]

theorem filter_pair_range (x : Ev α) :
    ∀ k i, i < k →
      ((List.range k).map (fun j => (j, x))).filter (fun p => p.1 == i)
        = [(i, x)] := by
  intro k
  induction k with
  | zero => intro i hi; omega
  | succ k ih =>
      intro i hi
      rw [List.range_succ, List.map_append, List.filter_append]
      rcases Nat.lt_or_ge i k with h | h
      · have hne : (k == i) = false := by simp; omega
        simp [ih i h, hne]
      · have hik : i = k := by omega
        subst hik
        simp [filter_pair_range_ge x i i (le_refl i)]

theorem flatten_map_singleton {β γ : Type} (l : List β) (g : β → γ) :
    (l.map (fun v => [g v])).flatten = l.map g := by
  induction l with
  | nil => simp
  | cons y ys ih => simp [ih]

theorem consumerTrace_lockstep_log (u : List α) (k i : Nat) (hi : i < k) :
    consumerTrace i
      (((u.map (fun v => (List.range k).map (fun j => (j, Ev.val v)))).flatten
        ++ (List.range k).map (fun j => (j, Ev.stop))))
      = u.map Ev.val ++ [Ev.stop] := by
  unfold consumerTrace
  rw [List.filter_append, List.filter_flatten, List.map_map]
  have h1 : ∀ v : α,
      ((List.range k).map (fun j => (j, Ev.val v))).filter
        (fun p => p.1 == i) = [(i, Ev.val v)] :=
    fun v => filter_pair_range (Ev.val v) k i hi
  have h3 : ((List.range k).map (fun j => (j, Ev.stop (α := α)))).filter
      (fun p => p.1 == i) = [(i, Ev.stop)] :=
    filter_pair_range Ev.stop k i hi
  simp only [Function.comp_def, h1, h3, flatten_map_singleton,
    List.map_append, List.map_map]
  simp

end TraceLemmas

/-- C1 (amended: `k ≥ 2`).  For every ForkContainer over a finite upstream
with `k ≥ 2` consumers and buffer capacity `c ≥ 1`, driving all consumers
in perfect lockstep (round-robin, nobody more than one position ahead)
never raises a buffer-overflow error, and every consumer observes exactly
the full upstream sequence in original order followed by exhaustion. -/
theorem fork_lockstep_no_overflow_full_order {α : Type} [Inhabited α]
    (u : List α) (k c : Nat) (hk : 2 ≤ k) (hc : 1 ≤ c) :
    NoOvfl (drive u c (lockSched k (u.length + 1)) (initFork α k)).1 ∧
    ∀ i < k,
      consumerTrace i
        (drive u c (lockSched k (u.length + 1)) (initFork α k)).1
        = u.map Ev.val ++ [Ev.stop] := by
  have hmain := drive_lockstep_from u c k hk hc u.length 0 (by omega)
    (by omega)
  rw [Nat.sub_zero, roundState_zero, List.drop_zero] at hmain
  have hev : (drive u c (lockSched k (u.length + 1)) (initFork α k)).1 =
      (u.map (fun v => (List.range k).map (fun i => (i, Ev.val v)))).flatten
        ++ (List.range k).map (fun i => (i, Ev.stop)) := by
    rw [hmain]
  constructor
  · rw [hev]
    intro p hp
    rcases List.mem_append.mp hp with h | h
    · rw [List.mem_flatten] at h
      obtain ⟨l, hl, hpl⟩ := h
      rw [List.mem_map] at hl
      obtain ⟨v, _, rfl⟩ := hl
      rw [List.mem_map] at hpl
      obtain ⟨j, _, rfl⟩ := hpl
      rfl
    · rw [List.mem_map] at h
      obtain ⟨j, _, rfl⟩ := h
      rfl
  · intro i hi
    rw [hev]
    exact consumerTrace_lockstep_log u k i hi

/-- Witness for C1 (amended) at `u = [10, 20]`, `k = 2`, `c = 1`. -/
theorem fork_lockstep_no_overflow_full_order_witness :
    (2 ≤ 2 ∧ 1 ≤ 1) ∧
      (NoOvfl (drive [10, 20] 1 (lockSched 2 ([10, 20].length + 1))
          (initFork Nat 2)).1 ∧
        ∀ i < 2,
          consumerTrace i
            (drive [10, 20] 1 (lockSched 2 ([10, 20].length + 1))
              (initFork Nat 2)).1
            = [10, 20].map Ev.val ++ [Ev.stop]) :=
  ⟨⟨by decide, by decide⟩,
    fork_lockstep_no_overflow_full_order [10, 20] 2 1 (by decide) (by decide)⟩

/-- C1 counterexample: with a single consumer (`k = 1`, allowed by the
claim's `k ≥ 1`) and capacity `c = 1`, lockstep driving of upstream
`[7, 8]` raises a buffer overflow on the second pull: a lone consumer
always takes the fetch branch, so the eviction branch never runs and
`slowest_ptr` stays 0 forever. -/
theorem fork_lockstep_single_consumer_overflows :
    (drive [7, 8] 1 (lockSched 1 3) (initFork Nat 1)).1
      = [(0, Ev.val 7), (0, Ev.ovfl 1)] ∧
    ¬ NoOvfl (drive [7, 8] 1 (lockSched 1 3) (initFork Nat 1)).1 := by
  constructor
  · rfl
  · unfold NoOvfl
    decide

section SoloFork

variable {α : Type} [Inhabited α]

/-- State of the container after consumer 0 alone pulled `j` times (all
other consumers idle at cursor 0): the whole prefix of length `j` is
still buffered because `slowest_ptr` never advanced. -/
def soloState (u : List α) (k j : Nat) : ForkState α :=
  ⟨u.take j, j :: List.replicate (k - 1) 0, 0, j - 1, none, j⟩

theorem soloState_zero (u : List α) (k : Nat) (hk : 1 ≤ k) :
    soloState u k 0 = initFork α k := by
  obtain ⟨k', rfl⟩ : ∃ k', k = k' + 1 := ⟨k - 1, by omega⟩
  simp [soloState, initFork, List.replicate_succ]

/-- Consumer 0's `(j+1)`-st pull while still under capacity (`j < c`):
the fetch branch appends one more element to the buffer. -/
theorem pull_solo (u : List α) (c k j : Nat) (hj : j < c)
    (hju : j < u.length) :
    getNext u c (soloState u k j) 0 =
      .yielded (u.getD j default) (soloState u k (j + 1)) := by
  have hv : u[j]? = some u[j] := List.getElem?_eq_getElem hju
  have hgd : (u[j]?).getD default = u[j] := by rw [hv]; rfl
  cases j with
  | zero =>
      have hc0 : ¬ c = 0 := by omega
      have htk0 : u.take 1 = [u[0]] := by
        have : (0 : Nat) + 1 = 1 := rfl
        rw [← this, List.take_succ, hv]
        rfl
      simp [getNext, soloState, getNextBody, hv, hgd, htk0, hc0]
  | succ j' =>
      have htk : u.take (j' + 1) ++ [u[j' + 1]] = u.take (j' + 1 + 1) := by
        conv_rhs => rw [List.take_succ]
        rw [hv]
        rfl
      have hgt : (j' + 1 : Nat) > j' + 1 - 1 := by omega
      simp [getNext, soloState, getNextBody, hv, hgd, htk, hgt]
      omega

/-- Consumer 0's `(c+1)`-st pull: `leading_ptr` is set to `c`, the check
`leading_ptr - slowest_ptr + 1 > buffer_size` fires and the pull raises
the overflow error naming the configured capacity. -/
theorem pull_solo_overflow (u : List α) (c k : Nat) :
    getNext u c (soloState u k c) 0 =
      .overflow c
        ⟨u.take c, c :: List.replicate (k - 1) 0, 0, c, none, c⟩ := by
  cases c with
  | zero =>
      simp [getNext, soloState, getNextBody]
  | succ c' =>
      have hchk : (((c' + 1 : Nat) : Int) - ((0 : Nat) : Int) + 1 >
          ((c' + 1 : Nat) : Int)) := by omega
      have hgt : (c' + 1 : Nat) > c' + 1 - 1 := by omega
      simp [getNext, soloState, getNextBody, hgt, hchk]

/-- Driving consumer 0 alone from `j` pulls up to the overflow. -/
theorem drive_solo (u : List α) (c k : Nat) (hcu : c ≤ u.length) :
    ∀ d j, d = c - j → j ≤ c →
      (drive u c (List.replicate (c + 1 - j) 0) (soloState u k j)).1 =
        ((u.drop j).take (c - j)).map (fun v => (0, Ev.val v))
          ++ [(0, Ev.ovfl c)] := by
  intro d
  induction d with
  | zero =>
      intro j hd hj
      have hjc : j = c := by omega
      subst hjc
      have h1 : j + 1 - j = 1 := by omega
      rw [h1]
      simp [drive, pull_solo_overflow u j k, Nat.sub_self]
  | succ d ih =>
      intro j hd hj
      have hjc : j < c := by omega
      have hju : j < u.length := by omega
      have h1 : c + 1 - j = (c + 1 - (j + 1)) + 1 := by omega
      rw [h1, List.replicate_succ]
      simp only [drive, pull_solo u c k j hjc hju]
      rw [ih (j + 1) (by omega) (by omega)]
      have hdrop : u.drop j = u[j] :: u.drop (j + 1) :=
        List.drop_eq_getElem_cons hju
      have hgd : u.getD j default = u[j] := by
        simp [List.getD_eq_getElem?_getD, List.getElem?_eq_getElem hju]
      have htake : c - j = (c - (j + 1)) + 1 := by omega
      rw [hgd, hdrop, htake, List.take_succ_cons, List.map_cons,
        List.cons_append]

end SoloFork

/-- C2.  For every ForkContainer (`k ≥ 1` consumers) with capacity `c`
not larger than the upstream length, driving consumer 0 alone `c + 1`
times while every other consumer stays at cursor 0 yields the first `c`
upstream elements and then — on exactly the `(c+1)`-st, over-advancing
pull — raises the buffer-overflow error naming the configured capacity
`c`. -/
theorem fork_overrun_overflow {α : Type} [Inhabited α] (u : List α)
    (k c : Nat) (hk : 1 ≤ k) (hcu : c ≤ u.length) :
    (drive u c (List.replicate (c + 1) 0) (initFork α k)).1 =
      (u.take c).map (fun v => (0, Ev.val v)) ++ [(0, Ev.ovfl c)] := by
  have h := drive_solo u c k hcu (c - 0) 0 rfl (by omega)
  rw [soloState_zero u k hk] at h
  simpa using h

/-- Witness for C2 at `u = [1, 2, 3]`, `k = 2`, `c = 2`. -/
theorem fork_overrun_overflow_witness :
    (1 ≤ 2 ∧ 2 ≤ [1, 2, 3].length) ∧
      (drive [1, 2, 3] 2 (List.replicate (2 + 1) 0) (initFork Nat 2)).1 =
        ([1, 2, 3].take 2).map (fun v => (0, Ev.val v)) ++ [(0, Ev.ovfl 2)] :=
  ⟨⟨by decide, by decide⟩,
    fork_overrun_overflow [1, 2, 3] 2 2 (by decide) (by decide)⟩

/-! ### Child view re-iteration (`_ChildDataPipe.__iter__`) -/

/-- `_ForkerIterDataPipe.is_instance_started` (combining.py lines
119-120). -/
def isInstanceStarted {α : Type} (s : ForkState α) (i : Nat) : Bool :=
  s.childPointers.getD i 0 != 0

/-- `_ForkerIterDataPipe.is_every_instance_exhausted` (lines 122-123):
`all(self.end_ptr == ptr for ptr in self.child_pointers)`.  In Python
`None == ptr` is `False`, which `Option.beq` models exactly. -/
def isEveryInstanceExhausted {α : Type} (s : ForkState α) : Bool :=
  s.childPointers.all (fun cp => s.endPtr == some cp)

/-- `_ForkerIterDataPipe.reset` (lines 125-131): fresh iterator, empty
buffer, `num_instances` zero cursors, all pointers back to 0. -/
def resetFork (α : Type) (k : Nat) : ForkState α :=
  ⟨[], List.replicate k 0, 0, 0, none, 0⟩

/-- `_ChildDataPipe.__iter__` (lines 150-157): if this consumer already
started the pass, warn when not every instance is exhausted, and reset
the shared container either way; otherwise leave the state alone.
Returns (warning emitted?, container state the generator will use).
`k` is the container's `num_instances`. -/
def childIterStart {α : Type} (k : Nat) (s : ForkState α) (i : Nat) :
    Bool × ForkState α :=
  if isInstanceStarted s i then
    (! isEveryInstanceExhausted s, resetFork α k)
  else
    (false, s)

/-- C4.  Requesting a fresh iteration on a ChildView whose consumer
already started the current pass, while not all consumers have finished
it, emits a warning and resets the shared container to its initial
state: all cursors 0, buffer empty, `slowest_ptr`, `leading_ptr`,
`end_ptr` back to their initial values — discarding every consumer's
in-flight progress. -/
theorem child_reiteration_warns_and_resets {α : Type} (k : Nat)
    (s : ForkState α) (i : Nat)
    (hstarted : isInstanceStarted s i = true)
    (hnotdone : isEveryInstanceExhausted s = false) :
    childIterStart k s i = (true, initFork α k) := by
  simp [childIterStart, hstarted, hnotdone, resetFork, initFork]

/-- Witness for C4: consumer 0 has read one element, consumer 1 none. -/
theorem child_reiteration_warns_and_resets_witness :
    (isInstanceStarted (⟨[5], [1, 0], 0, 0, none, 1⟩ : ForkState Nat) 0
        = true ∧
      isEveryInstanceExhausted
        (⟨[5], [1, 0], 0, 0, none, 1⟩ : ForkState Nat) = false) ∧
    childIterStart 2 (⟨[5], [1, 0], 0, 0, none, 1⟩ : ForkState Nat) 0
      = (true, initFork Nat 2) :=
  ⟨⟨by decide, by decide⟩,
    child_reiteration_warns_and_resets 2 _ 0 (by decide) (by decide)⟩

/-! ### Constructor validation (`ConcaterIterDataPipe`,
`ZipperIterDataPipe`) -/

/-- An argument handed to a combinator constructor: either a conforming
`IterDataPipe` or some other object (the payload is only identity). -/
inductive UpArg where
  | pipe : Nat → UpArg
  | notPipe : Nat → UpArg
deriving DecidableEq, Repr

/-- Python `isinstance(dp, IterDataPipe)`. -/
def isIterDataPipe : UpArg → Bool
  | .pipe _ => true
  | .notPipe _ => false

/-- The two exception kinds the constructors can raise. -/
inductive InitError where
  | valueError : InitError
  | typeError : InitError
deriving DecidableEq, Repr

/-- `ConcaterIterDataPipe.__init__` (combining.py lines 22-28):
`ValueError` on zero datapipes, `TypeError` when any argument is not an
`IterDataPipe`, otherwise stores the tuple. -/
def concatInit (datapipes : List UpArg) : Except InitError (List UpArg) :=
  if datapipes.length = 0 then .error .valueError
  else if ¬ (datapipes.all isIterDataPipe) then .error .typeError
  else .ok datapipes

/-- `ZipperIterDataPipe.__init__` (combining.py lines 209-215):
`TypeError` when any argument is not an `IterDataPipe`; there is no
emptiness check (`all` of an empty tuple is `True`). -/
def zipInit (datapipes : List UpArg) : Except InitError (List UpArg) :=
  if ¬ (datapipes.all isIterDataPipe) then .error .typeError
  else .ok datapipes

/-- C6 counterexample: constructing the zip stage with an empty stage
list does not fail — `ZipperIterDataPipe.__init__` has no emptiness
check, so it succeeds and later iteration yields nothing. -/
theorem zip_empty_init_succeeds :
    zipInit [] = .ok ([] : List UpArg) := rfl

/-- C6 (amended).  Concat with an empty stage list fails with the
invalid-argument (`ValueError`) error and with a non-conforming argument
fails with a `TypeError`; zip with a non-conforming argument fails with
a `TypeError`, but zip with an empty stage list succeeds. -/
theorem concat_zip_init_validation :
    concatInit [] = .error .valueError ∧
    (∀ dps : List UpArg, dps ≠ [] → dps.all isIterDataPipe = false →
      concatInit dps = .error .typeError) ∧
    (∀ dps : List UpArg, dps.all isIterDataPipe = false →
      zipInit dps = .error .typeError) ∧
    zipInit [] = .ok ([] : List UpArg) := by
  refine ⟨rfl, ?_, ?_, rfl⟩
  · intro dps hne hbad
    have hlen : ¬ dps.length = 0 := by
      simpa [List.length_eq_zero] using hne
    simp [concatInit, hlen, hbad]
  · intro dps hbad
    simp [zipInit, hbad]

/-- Witness for C6 (amended) at concrete bad and empty argument lists. -/
theorem concat_zip_init_validation_witness :
    concatInit [UpArg.notPipe 0] = .error .typeError ∧
    zipInit [UpArg.notPipe 0] = .error .typeError :=
  ⟨concat_zip_init_validation.2.1 [UpArg.notPipe 0] (by decide) (by decide),
    concat_zip_init_validation.2.2.1 [UpArg.notPipe 0] (by decide)⟩

/-! ### Reachable-state invariants of the fork container -/

section ForkInvariant

variable {α : Type} [Inhabited α]

theorem getD_set_self (l : List Nat) (i x : Nat) (h : i < l.length) :
    (l.set i x).getD i 0 = x := by
  simp [List.getD_eq_getElem?_getD, List.getElem?_set, h]

theorem getD_set_other (l : List Nat) (i j x : Nat) (hne : i ≠ j) :
    (l.set i x).getD j 0 = l.getD j 0 := by
  simp [List.getD_eq_getElem?_getD, List.getElem?_set, hne]

theorem getD_mem (l : List Nat) (j : Nat) (h : j < l.length) :
    l.getD j 0 ∈ l := by
  simp [List.getD_eq_getElem?_getD, List.getElem?_eq_getElem h]

/-- Invariant of every overflow-free reachable state of
`_ForkerIterDataPipe` over upstream `u` with `buffer_size = c` and
`num_instances = k`:
* there are exactly `k` cursors;
* every cursor lies between `slowest_ptr` and the iterator position;
* the iterator position is `slowest_ptr` plus the buffer length
  (each fetched position is buffered exactly once until evicted);
* the buffer holds exactly the upstream slice starting at `slowest_ptr`;
* before exhaustion the iterator is either untouched or exactly one
  position past `leading_ptr`; after exhaustion
  `end_ptr = leading_ptr = iterator position = |u|`;
* `leading_ptr - slowest_ptr + 1 ≤ c`. -/
def Inv (u : List α) (c k : Nat) (s : ForkState α) : Prop :=
  s.childPointers.length = k ∧
  (∀ i, i < k → s.slowestPtr ≤ s.childPointers.getD i 0 ∧
      s.childPointers.getD i 0 ≤ s.iterPos) ∧
  s.iterPos = s.slowestPtr + s.buffer.length ∧
  s.iterPos ≤ u.length ∧
  s.buffer = (u.drop s.slowestPtr).take s.buffer.length ∧
  (s.endPtr = none →
    (s.iterPos = 0 ∧ s.leadingPtr = 0) ∨ s.iterPos = s.leadingPtr + 1) ∧
  (∀ e, s.endPtr = some e →
    e = u.length ∧ s.iterPos = u.length ∧ s.leadingPtr = u.length) ∧
  s.leadingPtr + 1 ≤ s.slowestPtr + c

theorem inv_init (u : List α) (c k : Nat) (hc : 1 ≤ c) :
    Inv u c k (initFork α k) := by
  refine ⟨by simp [initFork], ?_, by simp [initFork], by simp [initFork],
    by simp [initFork], ?_, ?_, by simp [initFork]; omega⟩
  · intro i hik
    constructor
    · simp [initFork]
    · rcases Nat.lt_or_ge i k with h | h
      · simp [initFork, getD_replicate k 0 i h]
      · omega
  · intro _
    left
    exact ⟨rfl, rfl⟩
  · intro e he
    simp [initFork] at he

/-- In the fetch branch (`not self.buffer or cp > leading_ptr`) of an
invariant state that the `while` condition let through, the puller's
cursor equals the iterator position and the upstream is not yet
exhausted. -/
theorem fetch_branch_shape (u : List α) (c k : Nat) (s : ForkState α)
    (i : Nat) (hi : i < k) (hinv : Inv u c k s)
    (hrun : s.endPtr = none ∨
      ∃ e, s.endPtr = some e ∧ s.childPointers.getD i 0 < e)
    (hA : s.buffer = [] ∨ s.leadingPtr < s.childPointers.getD i 0) :
    s.childPointers.getD i 0 = s.iterPos ∧ s.endPtr = none := by
  obtain ⟨hlen, hptr, hpos, hle, hbuf, hphN, hphS, hcap⟩ := hinv
  obtain ⟨hlo, hhi⟩ := hptr i hi
  cases hE : s.endPtr with
  | none =>
      refine ⟨?_, rfl⟩
      rcases hA with hA | hA
      · have h0 : s.buffer.length = 0 := by rw [hA]; rfl
        omega
      · rcases hphN hE with ⟨h1, h2⟩ | h1
        · omega
        · omega
  | some e =>
      exfalso
      obtain ⟨he, hIter, hLead⟩ := hphS e hE
      rcases hrun with hrun | ⟨e', he', hcp⟩
      · rw [hE] at hrun; cases hrun
      · rw [hE] at he'
        have hee : e = e' := Option.some.inj he'
        subst hee
        rcases hA with hA | hA
        · have h0 : s.buffer.length = 0 := by rw [hA]; rfl
          omega
        · omega

/-- In the buffered-read branch of an invariant state the puller's
cursor is strictly below the iterator position (the read is in
range). -/
theorem read_branch_shape (u : List α) (c k : Nat) (s : ForkState α)
    (i : Nat) (hi : i < k) (hinv : Inv u c k s)
    (hrun : s.endPtr = none ∨
      ∃ e, s.endPtr = some e ∧ s.childPointers.getD i 0 < e)
    (hne : ¬ s.buffer = []) (hcp : s.childPointers.getD i 0 ≤ s.leadingPtr) :
    s.childPointers.getD i 0 < s.iterPos := by
  obtain ⟨hlen, hptr, hpos, hle, hbuf, hphN, hphS, hcap⟩ := hinv
  obtain ⟨hlo, hhi⟩ := hptr i hi
  have hblen : 0 < s.buffer.length := by
    cases hb : s.buffer with
    | nil => exact absurd hb hne
    | cons x xs => simp [hb]
  cases hE : s.endPtr with
  | none =>
      rcases hphN hE with ⟨h1, h2⟩ | h1
      · omega
      · omega
  | some e =>
      obtain ⟨he, hIter, hLead⟩ := hphS e hE
      rcases hrun with hrun | ⟨e', he', hcpe⟩
      · rw [hE] at hrun; cases hrun
      · rw [hE] at he'
        have hee : e = e' := Option.some.inj he'
        subst hee
        omega

/-- The `StopIteration` path preserves the invariant. -/
theorem inv_body_stop (u : List α) (c k : Nat) (s : ForkState α) (i : Nat)
    (hi : i < k) (hinv : Inv u c k s)
    (hrun : s.endPtr = none ∨
      ∃ e, s.endPtr = some e ∧ s.childPointers.getD i 0 < e)
    (s' : ForkState α) (h : getNextBody u c s i = .stopped s') :
    Inv u c k s' := by
  have hinv' := hinv
  obtain ⟨hlen, hptr, hpos, hle, hbuf, hphN, hphS, hcap⟩ := hinv'
  simp only [getNextBody] at h
  split at h
  next hA =>
    split at h
    next hB => simp at h
    next hB =>
      split at h
      next w heq => simp at h
      next heq =>
        simp only [Bool.or_eq_true, List.isEmpty_iff, decide_eq_true_eq]
          at hA
        obtain ⟨hcpIt, hEnone⟩ := fetch_branch_shape u c k s i hi hinv hrun hA
        rw [List.get?_eq_getElem?] at heq
        have hend : u.length ≤ s.iterPos := by
          by_contra hno
          push_neg at hno
          rw [List.getElem?_eq_getElem hno] at heq
          cases heq
        have hIter : s.iterPos = u.length := by omega
        injection h with hs
        subst hs
        refine ⟨hlen, hptr, hpos, hle, hbuf, ?_, ?_, ?_⟩
        · intro hcon
          simp at hcon
        · intro e he
          dsimp only at he
          injection he with he
          refine ⟨?_, ?_, ?_⟩ <;> dsimp only <;> omega
        · dsimp only
          omega
  next hA => 
    split at h
    next htrig =>
      split at h
      next hguard => simp at h
      next hguard => simp at h
    next htrig => simp at h


/-- Every yielded pull preserves the invariant. -/
theorem inv_body_yield (u : List α) (c k : Nat) (s : ForkState α) (i : Nat)
    (hi : i < k) (hinv : Inv u c k s)
    (hrun : s.endPtr = none ∨
      ∃ e, s.endPtr = some e ∧ s.childPointers.getD i 0 < e)
    (v : α) (s' : ForkState α) (h : getNextBody u c s i = .yielded v s') :
    Inv u c k s' := by
  have hinv' := hinv
  obtain ⟨hlen, hptr, hpos, hle, hbuf, hphN, hphS, hcap⟩ := hinv'
  simp only [getNextBody] at h
  split at h
  next hA =>
    split at h
    next hB => simp at h
    next hB =>
      split at h
      next w heq =>
        simp only [Bool.or_eq_true, List.isEmpty_iff, decide_eq_true_eq]
          at hA
        obtain ⟨hcpIt, hEnone⟩ := fetch_branch_shape u c k s i hi hinv hrun hA
        rw [List.get?_eq_getElem?] at heq
        obtain ⟨hlt, hw⟩ := List.getElem?_eq_some.mp heq
        injection h with hv hs
        subst hs
        refine ⟨?_, ?_, ?_, ?_, ?_, ?_, ?_, ?_⟩
        · dsimp only
          rw [List.length_set]
          exact hlen
        · intro i' hik
          dsimp only
          by_cases hii : i = i'
          · subst hii
            rw [getD_set_self _ _ _ (by omega)]
            obtain ⟨hlo, hhi⟩ := hptr i hi
            constructor
            · omega
            · omega
          · rw [getD_set_other _ _ _ _ hii]
            obtain ⟨hlo, hhi⟩ := hptr i' hik
            constructor
            · omega
            · omega
        · dsimp only
          rw [List.length_append]
          dsimp only [List.length]
          omega
        · dsimp only
          omega
        · dsimp only
          rw [List.length_append]
          dsimp only [List.length]
          conv_rhs => rw [List.take_succ]
          rw [← hbuf, List.getElem?_drop]
          have hsl : s.slowestPtr + s.buffer.length = s.iterPos := by omega
          rw [hsl, List.getElem?_eq_getElem hlt, hw]
          rfl
        · intro _
          dsimp only
          right
          omega
        · intro e he
          dsimp only at he
          rw [hEnone] at he
          cases he
        · dsimp only
          omega
      next heq => simp at h
  next hA =>
    simp only [Bool.or_eq_true, List.isEmpty_iff, decide_eq_true_eq,
      not_or] at hA
    obtain ⟨hne, hcpgt⟩ := hA
    have hcple : s.childPointers.getD i 0 ≤ s.leadingPtr := by omega
    have hlt : s.childPointers.getD i 0 < s.iterPos :=
      read_branch_shape u c k s i hi hinv hrun hne hcple
    have hloi : s.slowestPtr ≤ s.childPointers.getD i 0 := (hptr i hi).1
    split at h
    next htrig =>
      split at h
      next hguard =>
        -- eviction branch
        have hself : (s.childPointers.set i (s.childPointers.getD i 0 + 1)).getD
            i 0 = s.childPointers.getD i 0 + 1 :=
          getD_set_self _ _ _ (by omega)
        have hmem := getD_mem (s.childPointers.set i
          (s.childPointers.getD i 0 + 1)) i (by rw [List.length_set]; omega)
        rw [hself] at hmem
        have hmle := listMin_le_mem _ _ hmem
        have hm : listMin (s.childPointers.set i
            (s.childPointers.getD i 0 + 1)) = s.slowestPtr + 1 := by omega
        have hblen : 0 < s.buffer.length := by
          cases hb : s.buffer with
          | nil => exact absurd hb hne
          | cons x xs => simp [hb]
        have hslt : s.slowestPtr < u.length := by omega
        obtain ⟨L, hL⟩ : ∃ L, s.buffer.length = L + 1 :=
          ⟨s.buffer.length - 1, by omega⟩
        have hbuf' : s.buffer =
            u[s.slowestPtr] :: (u.drop (s.slowestPtr + 1)).take L := by
          rw [hbuf, hL, List.drop_eq_getElem_cons hslt, List.take_succ_cons]
        have htail : s.buffer.tail = (u.drop (s.slowestPtr + 1)).take L := by
          rw [hbuf']
          rfl
        have htlen : s.buffer.tail.length = L := by
          rw [List.length_tail]
          omega
        injection h with hv hs
        subst hs
        refine ⟨?_, ?_, ?_, ?_, ?_, ?_, ?_, ?_⟩
        · dsimp only
          rw [List.length_set]
          exact hlen
        · intro i' hik
          dsimp only
          rw [hm]
          by_cases hii : i = i'
          · subst hii
            rw [hself]
            constructor
            · omega
            · omega
          · rw [getD_set_other _ _ _ _ hii]
            obtain ⟨hlo, hhi⟩ := hptr i' hik
            have hmem' : (s.childPointers.set i
                (s.childPointers.getD i 0 + 1)).getD i' 0
                ∈ s.childPointers.set i (s.childPointers.getD i 0 + 1) :=
              getD_mem _ i' (by rw [List.length_set]; omega)
            have hmle' := listMin_le_mem _ _ hmem'
            rw [getD_set_other _ _ _ _ hii] at hmle'
            constructor
            · omega
            · omega
        · dsimp only
          rw [hm, htlen]
          omega
        · dsimp only
          omega
        · dsimp only
          rw [hm, htlen, htail]
        · intro hE
          dsimp only at hE ⊢
          rcases hphN hE with h1 | h1
          · left; exact h1
          · right; exact h1
        · intro e he
          dsimp only at he ⊢
          exact hphS e he
        · dsimp only
          rw [hm]
          omega
      next hguard =>
        injection h with hv hs
        subst hs
        refine ⟨?_, ?_, ?_, ?_, ?_, ?_, ?_, ?_⟩
        · dsimp only
          rw [List.length_set]
          exact hlen
        · intro i' hik
          dsimp only
          by_cases hii : i = i'
          · subst hii
            rw [getD_set_self _ _ _ (by omega)]
            constructor
            · omega
            · omega
          · rw [getD_set_other _ _ _ _ hii]
            obtain ⟨hlo, hhi⟩ := hptr i' hik
            constructor
            · omega
            · omega
        · exact hpos
        · exact hle
        · exact hbuf
        · exact hphN
        · exact hphS
        · exact hcap
    next htrig =>
      injection h with hv hs
      subst hs
      refine ⟨?_, ?_, ?_, ?_, ?_, ?_, ?_, ?_⟩
      · dsimp only
        rw [List.length_set]
        exact hlen
      · intro i' hik
        dsimp only
        by_cases hii : i = i'
        · subst hii
          rw [getD_set_self _ _ _ (by omega)]
          constructor
          · omega
          · omega
        · rw [getD_set_other _ _ _ _ hii]
          obtain ⟨hlo, hhi⟩ := hptr i' hik
          constructor
          · omega
          · omega
      · exact hpos
      · exact hle
      · exact hbuf
      · exact hphN
      · exact hphS
      · exact hcap

/-- A single pull (of any consumer) that does not overflow preserves the
invariant. -/
theorem inv_getNext (u : List α) (c k : Nat) (s : ForkState α) (i : Nat)
    (hi : i < k) (hinv : Inv u c k s) :
    (∀ v s', getNext u c s i = .yielded v s' → Inv u c k s') ∧
    (∀ s', getNext u c s i = .stopped s' → Inv u c k s') := by
  unfold getNext
  cases hE : s.endPtr with
  | none =>
      exact ⟨fun v s' h => inv_body_yield u c k s i hi hinv (Or.inl hE) v s' h,
        fun s' h => inv_body_stop u c k s i hi hinv (Or.inl hE) s' h⟩
  | some e =>
      dsimp only
      by_cases hlt : s.childPointers.getD i 0 < e
      · rw [if_pos hlt]
        exact ⟨fun v s' h =>
            inv_body_yield u c k s i hi hinv (Or.inr ⟨e, hE, hlt⟩) v s' h,
          fun s' h => inv_body_stop u c k s i hi hinv (Or.inr ⟨e, hE, hlt⟩) s' h⟩
      · rw [if_neg hlt]
        constructor
        · intro v s' h
          cases h
        · intro s' h
          injection h with hs
          subst hs
          exact hinv

/-- The states of the fork container reachable from the initial state by
per-consumer pulls none of which raised a buffer overflow. -/
inductive Reach (u : List α) (c k : Nat) : ForkState α → Prop where
  | init : Reach u c k (initFork α k)
  | yield (s s' : ForkState α) (i : Nat) (v : α) : Reach u c k s → i < k →
      getNext u c s i = .yielded v s' → Reach u c k s'
  | stop (s s' : ForkState α) (i : Nat) : Reach u c k s → i < k →
      getNext u c s i = .stopped s' → Reach u c k s'

theorem reach_inv (u : List α) (c k : Nat) (hc : 1 ≤ c) (s : ForkState α)
    (hr : Reach u c k s) : Inv u c k s := by
  induction hr with
  | init => exact inv_init u c k hc
  | yield s s' i v _ hik hstep ih =>
      exact (inv_getNext u c k s i hik ih).1 v s' hstep
  | stop s s' i _ hik hstep ih =>
      exact (inv_getNext u c k s i hik ih).2 s' hstep

/-- C3 (amended: capacity `c ≥ 1`).  In every state reachable by pulls
that raised no overflow: the buffer length equals
`leading_ptr - slowest_ptr`, plus 1 while the iterator is started and the
upstream is not yet exhausted; the buffer holds exactly the pending
upstream slice starting at `slowest_ptr` (so no position is buffered
twice); every cursor is at least `slowest_ptr` (no consumer can read an
evicted position); and `leading_ptr - slowest_ptr + 1 ≤ c` holds at all
times. -/
theorem fork_reachable_invariants {α : Type} [Inhabited α] (u : List α)
    (c k : Nat) (hc : 1 ≤ c) (s : ForkState α) (hr : Reach u c k s) :
    ((s.buffer.length : Int) =
        (s.leadingPtr : Int) - (s.slowestPtr : Int) +
          (if s.endPtr = none ∧ 0 < s.iterPos then 1 else 0)) ∧
    s.buffer = (u.drop s.slowestPtr).take s.buffer.length ∧
    (∀ i, i < k → s.slowestPtr ≤ s.childPointers.getD i 0) ∧
    ((s.leadingPtr : Int) - (s.slowestPtr : Int) + 1 ≤ (c : Int)) := by
  obtain ⟨hlen, hptr, hpos, hle, hbuf, hphN, hphS, hcap⟩ :=
    reach_inv u c k hc s hr
  refine ⟨?_, hbuf, fun i hik => (hptr i hik).1, by omega⟩
  cases hE : s.endPtr with
  | none =>
      rcases hphN hE with ⟨h1, h2⟩ | h1
      · have hz : ¬ (0 < s.iterPos) := by omega
        simp only [hE, hz, and_false, if_false, true_and]
        omega
      · have hp : (0 < s.iterPos) := by omega
        simp only [hE, hp, and_true, if_true, true_and]
        omega
  | some e =>
      obtain ⟨he, hIter, hLead⟩ := hphS e hE
      have hz : ¬ ((some e : Option Nat) = none ∧ 0 < s.iterPos) := by simp
      rw [if_neg hz]
      omega

/-- Witness for C3 (amended) at the initial state of a two-consumer
container with capacity 1 over `[1, 2]`. -/
theorem fork_reachable_invariants_witness :
    (1 ≤ 1) ∧
      ((((initFork Nat 2).buffer.length : Int) =
          ((initFork Nat 2).leadingPtr : Int) -
            ((initFork Nat 2).slowestPtr : Int) +
            (if (initFork Nat 2).endPtr = none ∧ 0 < (initFork Nat 2).iterPos
              then 1 else 0)) ∧
        (initFork Nat 2).buffer =
          (([1, 2] : List Nat).drop (initFork Nat 2).slowestPtr).take
            (initFork Nat 2).buffer.length ∧
        (∀ i, i < 2 →
          (initFork Nat 2).slowestPtr ≤
            (initFork Nat 2).childPointers.getD i 0) ∧
        (((initFork Nat 2).leadingPtr : Int) -
            ((initFork Nat 2).slowestPtr : Int) + 1 ≤ ((1 : Nat) : Int))) :=
  ⟨by decide, fork_reachable_invariants [1, 2] 1 2 (by decide) _ Reach.init⟩

/-- C3 counterexample: with `buffer_capacity = 0` the initial state —
reachable by the empty pull sequence, which raises no overflow — already
violates the claimed `leading_ptr - slowest_ptr + 1 ≤ buffer_capacity`. -/
theorem fork_capacity_zero_invariant_fails :
    Reach ([] : List Nat) 0 1 (initFork Nat 1) ∧
      ¬ (((initFork Nat 1).leadingPtr : Int) -
          ((initFork Nat 1).slowestPtr : Int) + 1 ≤ ((0 : Nat) : Int)) :=
  ⟨Reach.init, by decide⟩

end ForkInvariant

/-! ### MapStage (`MapperIterDataPipe._apply`) -/

/-- A Python value as seen by `MapperIterDataPipe._apply`: an atom, a
plain `list`, a `DataChunk`, or some other sequence kind (e.g. a tuple)
that the recursion does not recognize. -/
inductive PyData (α : Type) where
  | atom : α → PyData α
  | plist : List (PyData α) → PyData α
  | chunk : List (PyData α) → PyData α
  | tupl : List (PyData α) → PyData α
deriving Repr

/-- The `IndexError` of `_apply` (callable.py line 75), carrying the
configured `self.nesting_level` that its message names. -/
inductive ApplyErr where
  | indexError : Int → ApplyErr
deriving DecidableEq, Repr

/-- `data` is recognized as a nested sequence by `_apply`: only
`DataChunk` and plain `list` are (in that test order). -/
def isNestedSeq {α : Type} : PyData α → Bool
  | .plist _ => true
  | .chunk _ => true
  | _ => false

mutual

/-- `MapperIterDataPipe._apply` (callable.py lines 66-82), with
`self.fn` (plus its bound args) abstracted as `fn`, the configured
`self.nesting_level` as `cfg` and the current recursion level as the
third argument. -/
def applyFn {α : Type} (fn : PyData α → PyData α) (cfg : Int) :
    Int → PyData α → Except ApplyErr (PyData α)
  | level, d =>
    if level = 0 then .ok (fn d)
    else if level > 0 then
      match d with
      | .chunk xs => (applyList fn cfg (level - 1) xs).map PyData.chunk
      | .plist xs => (applyList fn cfg (level - 1) xs).map PyData.plist
      | _ => .error (.indexError cfg)
    else
      match d with
      | .chunk xs => (applyList fn cfg level xs).map PyData.chunk
      | .plist xs => (applyList fn cfg level xs).map PyData.plist
      | d' => .ok (fn d')

/-- The list comprehension `[self._apply(i, ...) for i in ...]`:
left to right, the first raised error propagates. -/
def applyList {α : Type} (fn : PyData α → PyData α) (cfg : Int) :
    Int → List (PyData α) → Except ApplyErr (List (PyData α))
  | _, [] => .ok []
  | level, x :: xs => do
      let y ← applyFn fn cfg level x
      let ys ← applyList fn cfg level xs
      .ok (y :: ys)

end

mutual

/-- Specification-side description of the `level = -1` behavior: descend
through every recognized nesting level and apply `fn` exactly to the
non-container leaves, rebuilding the same container kind. -/
def mapLeaves {α : Type} (fn : PyData α → PyData α) : PyData α → PyData α
  | .plist xs => .plist (mapLeavesList fn xs)
  | .chunk xs => .chunk (mapLeavesList fn xs)
  | d => fn d

def mapLeavesList {α : Type} (fn : PyData α → PyData α) :
    List (PyData α) → List (PyData α)
  | [] => []
  | x :: xs => mapLeaves fn x :: mapLeavesList fn xs

end

theorem applyFn_applyList_neg_one {α : Type} (fn : PyData α → PyData α)
    (cfg : Int) :
    ∀ n : Nat,
      (∀ d : PyData α, sizeOf d ≤ n →
        applyFn fn cfg (-1) d = .ok (mapLeaves fn d)) ∧
      (∀ xs : List (PyData α), sizeOf xs ≤ n →
        applyList fn cfg (-1) xs = .ok (mapLeavesList fn xs)) := by
  intro n
  induction n with
  | zero =>
      constructor
      · intro d hd
        exfalso
        cases d <;> simp at hd
      · intro xs hxs
        exfalso
        cases xs <;> simp at hxs
  | succ n ih =>
      constructor
      · intro d hd
        cases d with
        | atom a => simp [applyFn, mapLeaves]
        | plist xs =>
            have hsz : sizeOf xs ≤ n := by simp at hd; omega
            simp [applyFn, mapLeaves, ih.2 xs hsz, Except.map]
        | chunk xs =>
            have hsz : sizeOf xs ≤ n := by simp at hd; omega
            simp [applyFn, mapLeaves, ih.2 xs hsz, Except.map]
        | tupl xs => simp [applyFn, mapLeaves]
      · intro xs hxs
        cases xs with
        | nil => simp [applyList, mapLeavesList]
        | cons x rest =>
            have hx : sizeOf x ≤ n := by simp at hxs; omega
            have hr : sizeOf rest ≤ n := by simp at hxs; omega
            simp [applyList, mapLeavesList, ih.1 x hx, ih.2 rest hr,
              Bind.bind, Except.bind]

/-- The example transform of the spec: square an atom's numeric payload
(a Python `square` only ever receives non-container leaves at
`nesting_level = -1`). -/
def square (d : PyData Nat) : PyData Nat :=
  match d with
  | .atom n => .atom (n * n)
  | d' => d'

/-- C5.  With `nesting_level = -1`, `_apply` recurses through every level
of recognized nested-sequence structure with the level unchanged and
applies `fn` exactly to the non-container leaves, rebuilding the same
container kinds — equivalently it computes `mapLeaves`; in particular
`square` over `[[1, 2], [3]]` gives `[[1, 4], [9]]`. -/
theorem mapstage_apply_at_leaves :
    (∀ (α : Type) (fn : PyData α → PyData α) (cfg : Int) (d : PyData α),
      applyFn fn cfg (-1) d = .ok (mapLeaves fn d)) ∧
    applyFn square (-1) (-1)
        (.plist [.plist [.atom 1, .atom 2], .plist [.atom 3]]) =
      .ok (.plist [.plist [.atom 1, .atom 4], .plist [.atom 9]]) := by
  constructor
  · intro α fn cfg d
    exact (applyFn_applyList_neg_one fn cfg (sizeOf d)).1 d (le_refl _)
  · rfl

/-- Witness for C5 at `fn = square`, `d = atom 3`. -/
theorem mapstage_apply_at_leaves_witness :
    applyFn square 0 (-1) (.atom 3 : PyData Nat) =
      .ok (mapLeaves square (.atom 3)) :=
  mapstage_apply_at_leaves.1 Nat square 0 (.atom 3)

/-- C10.  The nested-sequence recursion of `_apply` recognizes only
plain lists and `DataChunk`: any other value raises the nesting-depth
`IndexError` (naming the configured level) when `nesting_level > 0`, and
is treated as a leaf — `fn` applied directly — when
`nesting_level = -1`. -/
theorem mapstage_unrecognized_sequences :
    (∀ (α : Type) (fn : PyData α → PyData α) (cfg level : Int)
        (d : PyData α), isNestedSeq d = false → 0 < level →
      applyFn fn cfg level d = .error (.indexError cfg)) ∧
    (∀ (α : Type) (fn : PyData α → PyData α) (cfg : Int) (d : PyData α),
        isNestedSeq d = false →
      applyFn fn cfg (-1) d = .ok (fn d)) := by
  constructor
  · intro α fn cfg level d hns hpos
    have h0 : ¬ level = 0 := by omega
    cases d with
    | atom a => simp [applyFn, h0, hpos]
    | plist xs => simp [isNestedSeq] at hns
    | chunk xs => simp [isNestedSeq] at hns
    | tupl xs => simp [applyFn, h0, hpos]
  · intro α fn cfg d hns
    cases d with
    | atom a => simp [applyFn]
    | plist xs => simp [isNestedSeq] at hns
    | chunk xs => simp [isNestedSeq] at hns
    | tupl xs => simp [applyFn]

/-- Witness for C10 at the tuple `(3,)`, `fn = square`. -/
theorem mapstage_unrecognized_sequences_witness :
    (isNestedSeq (.tupl [.atom 3] : PyData Nat) = false ∧ (0 : Int) < 2 ∧
      applyFn square 2 2 (.tupl [.atom 3]) = .error (.indexError 2)) ∧
    applyFn square (-1) (-1) (.tupl [.atom 3] : PyData Nat) =
      .ok (square (.tupl [.atom 3])) :=
  ⟨⟨rfl, by decide,
      mapstage_unrecognized_sequences.1 Nat square 2 2 _ rfl (by decide)⟩,
    mapstage_unrecognized_sequences.2 Nat square (-1) _ rfl⟩

/-! ### MuxStage (`MultiplexerIterDataPipe`) -/

/-- One round of the `for i in range(len(iterators))` loop of
`MultiplexerIterDataPipe.__iter__` (combining.py lines 186-193).  A
source is a pair (remaining elements of its iterator, its presence in
the `finished` dict).  A finished source is skipped; an unfinished
exhausted source is marked finished; otherwise one element is pulled and
yielded.  Returns (yields of the round in order, new sources,
`had_more`). -/
def muxRound {α : Type} :
    List (List α × Bool) → List α × List (List α × Bool) × Bool
  | [] => ([], [], false)
  | (l, f) :: rest =>
    let r := muxRound rest
    if f then (r.1, (l, f) :: r.2.1, r.2.2)
    else
      match l with
      | [] => (r.1, ([], true) :: r.2.1, r.2.2)
      | v :: t => (v :: r.1, (t, false) :: r.2.1, true)

/-- The `while had_more` loop, fuelled: each productive round consumes
at least one element, so total length + 1 rounds always suffice. -/
def muxLoop {α : Type} : Nat → List (List α × Bool) → List α
  | 0, _ => []
  | fuel + 1, st =>
    let r := muxRound st
    if r.2.2 then r.1 ++ muxLoop fuel r.2.1 else r.1

/-- `MultiplexerIterDataPipe.__iter__` over finite sources: the complete
yielded sequence. -/
def muxIter {α : Type} (srcs : List (List α)) : List α :=
  muxLoop ((srcs.map List.length).sum + 1) (srcs.map (fun l => (l, false)))

theorem sum_tail_le {α : Type} (ls : List (List α)) :
    ((ls.map List.tail).map List.length).sum ≤ (ls.map List.length).sum := by
  induction ls with
  | nil => simp
  | cons l rest ih =>
      simp only [List.map_cons, List.sum_cons]
      have : l.tail.length ≤ l.length := by
        rw [List.length_tail]; omega
      omega

theorem sum_tail_lt {α : Type} (ls : List (List α))
    (h : ¬ (ls.all List.isEmpty = true)) :
    ((ls.map List.tail).map List.length).sum < (ls.map List.length).sum := by
  induction ls with
  | nil => simp at h
  | cons l rest ih =>
      simp only [List.all_cons, Bool.and_eq_true, not_and_or] at h
      cases l with
      | nil =>
          have hrest : ¬ (rest.all List.isEmpty = true) := by
            rcases h with h | h
            · simp at h
            · exact h
          simp only [List.map_cons, List.sum_cons, List.tail_nil]
          have := ih hrest
          omega
      | cons x t =>
          simp only [List.map_cons, List.sum_cons, List.tail_cons]
          have := sum_tail_le rest
          simp only [List.length_cons]
          omega

/-- Specification-side round-robin interleaving: repeatedly emit the
heads of all currently non-empty sources in original order, until all
sources are exhausted. -/
def interleave {α : Type} (ls : List (List α)) : List α :=
  if h : ls.all List.isEmpty then []
  else (ls.filterMap List.head?) ++ interleave (ls.map List.tail)
termination_by (ls.map List.length).sum
decreasing_by
  exact sum_tail_lt ls h

theorem all_isEmpty_filterMap_head {α : Type} (ls : List (List α))
    (h : ls.all List.isEmpty = true) : ls.filterMap List.head? = [] := by
  induction ls with
  | nil => simp
  | cons l rest ih =>
      simp only [List.all_cons, Bool.and_eq_true] at h
      obtain ⟨h1, h2⟩ := h
      rw [List.isEmpty_iff] at h1
      subst h1
      simp [ih h2]

theorem all_isEmpty_flatten {α : Type} (ls : List (List α))
    (h : ls.all List.isEmpty = true) : ls.flatten = [] := by
  induction ls with
  | nil => simp
  | cons l rest ih =>
      simp only [List.all_cons, Bool.and_eq_true] at h
      obtain ⟨h1, h2⟩ := h
      rw [List.isEmpty_iff] at h1
      subst h1
      simp [ih h2]

theorem round_perm {α : Type} (ls : List (List α)) :
    (ls.filterMap List.head? ++ (ls.map List.tail).flatten).Perm
      ls.flatten := by
  induction ls with
  | nil => simp
  | cons l rest ih =>
      cases l with
      | nil => simpa using ih
      | cons x t =>
          simp only [List.filterMap_cons, List.head?_cons, List.map_cons,
            List.tail_cons, List.flatten_cons, List.cons_append]
          refine List.Perm.cons x ?_
          have h1 : (rest.filterMap List.head? ++
              (t ++ (rest.map List.tail).flatten)).Perm
              (t ++ (rest.filterMap List.head? ++
                (rest.map List.tail).flatten)) := by
            rw [← List.append_assoc, ← List.append_assoc]
            exact List.Perm.append_right _ List.perm_append_comm
          exact h1.trans (List.Perm.append_left t ih)

theorem interleave_perm_flatten {α : Type} :
    ∀ (n : Nat) (ls : List (List α)), (ls.map List.length).sum ≤ n →
      (interleave ls).Perm ls.flatten := by
  intro n
  induction n with
  | zero =>
      intro ls h
      have hall : ls.all List.isEmpty = true := by
        by_contra hno
        have := sum_tail_lt ls hno
        omega
      rw [interleave, dif_pos hall, all_isEmpty_flatten ls hall]
  | succ n ih =>
      intro ls h
      by_cases hall : ls.all List.isEmpty = true
      · rw [interleave, dif_pos hall, all_isEmpty_flatten ls hall]
      · rw [interleave, dif_neg hall]
        have hlt := sum_tail_lt ls hall
        have ihp := ih (ls.map List.tail) (by omega)
        exact (List.Perm.append_left _ ihp).trans (round_perm ls)

/-- What one code round computes, on states whose finished flags only
mark genuinely empty sources. -/
theorem muxRound_spec {α : Type} (st : List (List α × Bool))
    (hinv : ∀ p ∈ st, p.2 = true → p.1 = []) :
    (muxRound st).1 = st.filterMap (fun p => p.1.head?) ∧
    (muxRound st).2.1.map Prod.fst = (st.map Prod.fst).map List.tail ∧
    (∀ p ∈ (muxRound st).2.1, p.2 = true → p.1 = []) ∧
    ((muxRound st).2.2 = true ↔
      ¬ ((st.map Prod.fst).all List.isEmpty = true)) := by
  induction st with
  | nil => simp [muxRound]
  | cons p rest ih =>
      obtain ⟨l, f⟩ := p
      have hinv' : ∀ q ∈ rest, q.2 = true → q.1 = [] :=
        fun q hq => hinv q (List.mem_cons_of_mem _ hq)
      obtain ⟨ih1, ih2, ih3, ih4⟩ := ih hinv'
      cases f with
      | true =>
          have hl : l = [] := hinv (l, true) (by simp) rfl
          subst hl
          refine ⟨?_, ?_, ?_, ?_⟩
          · simp [muxRound, ih1]
          · simp [muxRound, ih2]
          · intro q hq
            simp only [muxRound] at hq
            rcases List.mem_cons.mp hq with h | h
            · subst h; intro; rfl
            · exact ih3 q h
          · simp [muxRound, ih4]
      | false =>
          cases l with
          | nil =>
              refine ⟨?_, ?_, ?_, ?_⟩
              · simp [muxRound, ih1]
              · simp [muxRound, ih2]
              · intro q hq
                simp only [muxRound] at hq
                rcases List.mem_cons.mp hq with h | h
                · subst h; intro; rfl
                · exact ih3 q h
              · simp [muxRound, ih4]
          | cons x t =>
              refine ⟨?_, ?_, ?_, ?_⟩
              · simp [muxRound, ih1]
              · simp [muxRound, ih2]
              · intro q hq
                simp only [muxRound] at hq
                rcases List.mem_cons.mp hq with h | h
                · subst h; intro hh; simp at hh
                · exact ih3 q h
              · simp [muxRound]

theorem muxLoop_eq_interleave {α : Type} :
    ∀ (fuel : Nat) (st : List (List α × Bool)),
      (∀ p ∈ st, p.2 = true → p.1 = []) →
      ((st.map Prod.fst).map List.length).sum < fuel →
      muxLoop fuel st = interleave (st.map Prod.fst) := by
  intro fuel
  induction fuel with
  | zero => intro st _ h; omega
  | succ fuel ih =>
      intro st hinv hfuel
      obtain ⟨h1, h2, h3, h4⟩ := muxRound_spec st hinv
      by_cases hall : (st.map Prod.fst).all List.isEmpty = true
      · have hm : (muxRound st).2.2 = false := by
          cases hmm : (muxRound st).2.2
          · rfl
          · exact absurd hall (h4.mp hmm)
        rw [interleave, dif_pos hall]
        simp only [muxLoop, hm, if_false, Bool.false_eq_true]
        rw [h1]
        have hfm : (st.map Prod.fst).filterMap List.head? = [] :=
          all_isEmpty_filterMap_head _ hall
        rw [List.filterMap_map] at hfm
        exact hfm
      · have hm : (muxRound st).2.2 = true := h4.mpr hall
        simp only [muxLoop, hm, if_true]
        rw [ih (muxRound st).2.1 h3 ?_, h1, h2]
        · conv_rhs => rw [interleave]
          rw [dif_neg hall, List.filterMap_map]
          rfl
        · rw [h2]
          have := sum_tail_lt (st.map Prod.fst) hall
          omega

/-- C7.  For all finite sources, MuxStage yields exactly the round-robin
interleaving of the currently active sources in original order
(`interleave`), hence exactly the total number of upstream elements
(for two sources `a` and `b`, `|a| + |b|`), with no element duplicated
or dropped (its output is a permutation of the concatenation); it stops
after the first full round that yields no element. -/
theorem mux_roundrobin (α : Type) (srcs : List (List α)) :
    muxIter srcs = interleave srcs ∧
    (muxIter srcs).length = (srcs.map List.length).sum ∧
    (muxIter srcs).Perm srcs.flatten := by
  have hfst : (srcs.map (fun l => (l, false))).map Prod.fst = srcs := by
    induction srcs with
    | nil => rfl
    | cons l rest ih => simp [ih]
  have hinv0 : ∀ p ∈ srcs.map (fun l => (l, false)), p.2 = true → p.1 = [] := by
    intro p hp hpt
    simp only [List.mem_map] at hp
    obtain ⟨l, _, rfl⟩ := hp
    simp at hpt
  have hbound :
      (((srcs.map (fun l => (l, false))).map Prod.fst).map List.length).sum <
        (srcs.map List.length).sum + 1 := by
    rw [hfst]
    omega
  have h1 : muxIter srcs = interleave srcs := by
    unfold muxIter
    rw [muxLoop_eq_interleave _ _ hinv0 hbound, hfst]
  have hperm : (muxIter srcs).Perm srcs.flatten := by
    rw [h1]
    exact interleave_perm_flatten ((srcs.map List.length).sum) srcs (le_refl _)
  refine ⟨h1, ?_, hperm⟩
  rw [hperm.length_eq, List.length_flatten]

/-- Witness for C7 at the two unequal-length sources `[1,2,3]`, `[4,5]`. -/
theorem mux_roundrobin_witness :
    muxIter [[1, 2, 3], [4, 5]] = interleave [[1, 2, 3], [4, 5]] ∧
    (muxIter [[1, 2, 3], [4, 5]]).length =
      ([[1, 2, 3], [4, 5]].map List.length).sum ∧
    (muxIter [[1, 2, 3], [4, 5]]).Perm [[1, 2, 3], [4, 5]].flatten :=
  mux_roundrobin Nat [[1, 2, 3], [4, 5]]

/-! ### DemuxStage (`DemultiplexerIterDataPipe`) -/

/-- Modelled from the spec: the `filter` stage that
`DemultiplexerIterDataPipe.__new__` chains onto
`IterateBuffer(buffer)` is registered elsewhere and its implementation
is not among this repository's sources; per the spec, filtering a
materialized sequence yields "in original order, exactly the
materialized elements for which" the predicate holds. -/
def filterPipe {α : Type} (p : α → Bool) (l : List α) : List α :=
  l.filter p

/-- `DemultiplexerIterDataPipe.__new__` (combining.py lines 166-172):
`buffer = list(datapipe)` eagerly materializes the whole upstream once;
view `i` (for `i in range(instances)`) replays the buffer through
`IterateBuffer` and filters it with
`filter_fn(classifier_fn, i, x) = classifier_fn(x) == i`.  The
classifier returns a Python int, modelled as `Int`. -/
def demux {α : Type} (datapipe : List α) (instances : Nat)
    (classifier : α → Int) : List (List α) :=
  (List.range instances).map
    (fun (i : Nat) => filterPipe (fun x => classifier x == (i : Int)) datapipe)

theorem demux_getD {α : Type} (src : List α) (N : Nat)
    (cls : α → Int) (i : Nat) (hi : i < N) :
    (demux src N cls).getD i [] =
      src.filter (fun x => cls x == (i : Int)) := by
  unfold demux filterPipe
  rw [List.getD_eq_getElem?_getD, List.getElem?_map, List.getElem?_range hi]
  rfl

/-- C8.  DemuxStage materializes the upstream once, and view `i` yields,
in original upstream order, exactly the materialized elements `x` with
`classifier x = i`: each view is an order-preserving subsequence of the
source, its multiset of elements is exactly the source elements
classified to `i`, and the spec's worked example holds:
source `[0,1,2,3,4]`, `N = 2`, classifier `x % 2` gives views
`[0,2,4]` and `[1,3]`. -/
theorem demux_views :
    (∀ (α : Type) (src : List α) (N : Nat) (cls : α → Int) (i : Nat),
        i < N → ((demux src N cls).getD i []).Sublist src) ∧
    (∀ (α : Type) [DecidableEq α] (src : List α) (N : Nat) (cls : α → Int)
        (i : Nat), i < N → ∀ x : α,
      List.count x ((demux src N cls).getD i []) =
        if cls x == (i : Int) then List.count x src else 0) ∧
    demux [0, 1, 2, 3, 4] 2 (fun x => x % 2) = [[0, 2, 4], [1, 3]] := by
  refine ⟨?_, ?_, by decide⟩
  · intro α src N cls i hi
    rw [demux_getD src N cls i hi]
    exact List.filter_sublist src
  · intro α _ src N cls i hi x
    rw [demux_getD src N cls i hi]
    by_cases hx : cls x == (i : Int)
    · rw [if_pos hx]
      exact List.count_filter hx
    · rw [if_neg hx]
      rw [List.count_eq_zero]
      intro hmem
      rw [List.mem_filter] at hmem
      exact hx hmem.2

/-- Witness for C8 at the spec's worked example (view 0). -/
theorem demux_views_witness :
    ((0 : Nat) < 2 ∧
      ((demux [0, 1, 2, 3, 4] 2 (fun x => x % 2)).getD 0 []).Sublist
        [0, 1, 2, 3, 4]) ∧
    List.count (2 : Int)
        ((demux [0, 1, 2, 3, 4] 2 (fun x => x % 2)).getD 0 []) =
      if (2 : Int) % 2 == (0 : Int)
        then List.count (2 : Int) [0, 1, 2, 3, 4] else 0 :=
  ⟨⟨by decide, demux_views.1 Int [0, 1, 2, 3, 4] 2 (fun x => x % 2) 0
      (by decide)⟩,
    demux_views.2.1 Int [0, 1, 2, 3, 4] 2 (fun x => x % 2) 0 (by decide) 2⟩

/-- C9.  A classifier value outside `[0, N)` raises no error anywhere:
`demux` and its views are total, the offending element simply appears in
none of the `N` views (it fails every `classifier(x) == i` filter),
while every element classified into `[0, N)` is still routed to its
view. -/
theorem demux_out_of_range_dropped :
    (∀ (α : Type) (src : List α) (N : Nat) (cls : α → Int) (x : α),
        ((N : Int) ≤ cls x ∨ cls x < 0) →
      ∀ i, i < N → x ∉ (demux src N cls).getD i []) ∧
    (∀ (α : Type) (src : List α) (N : Nat) (cls : α → Int) (y : α),
        y ∈ src → 0 ≤ cls y → cls y < (N : Int) →
      y ∈ (demux src N cls).getD (cls y).toNat []) := by
  constructor
  · intro α src N cls x hout i hi hmem
    rw [demux_getD src N cls i hi, List.mem_filter] at hmem
    obtain ⟨-, hcls⟩ := hmem
    have : cls x = (i : Int) := by simpa using hcls
    rcases hout with hout | hout
    · have : (N : Int) ≤ (i : Int) := by omega
      have : N ≤ i := by exact_mod_cast this
      omega
    · omega
  · intro α src N cls y hysrc h0 hN
    have hi : (cls y).toNat < N := by omega
    rw [demux_getD src N cls (cls y).toNat hi]
    rw [List.mem_filter]
    refine ⟨hysrc, ?_⟩
    simp [Int.toNat_of_nonneg h0]

/-- Witness for C9: source `[0, 1, 5]`, `N = 2`, identity classifier —
the element 5 is silently dropped from view 0 while 1 still reaches
view 1. -/
theorem demux_out_of_range_dropped_witness :
    (((2 : Nat) : Int) ≤ (5 : Int) ∧ (0 : Nat) < 2 ∧
      (5 : Int) ∉ (demux [0, 1, 5] 2 (fun x => x)).getD 0 []) ∧
    ((1 : Int) ∈ ([0, 1, 5] : List Int) ∧
      (1 : Int) ∈ (demux [0, 1, 5] 2 (fun x => x)).getD (1 : Int).toNat []) :=
  ⟨⟨by decide, by decide,
      demux_out_of_range_dropped.1 Int [0, 1, 5] 2 (fun x => x) 5
        (Or.inl (by decide)) 0 (by decide)⟩,
    ⟨by decide,
      demux_out_of_range_dropped.2 Int [0, 1, 5] 2 (fun x => x) 1
        (by decide) (by decide) (by decide)⟩⟩

end DataPipes
